import Mathlib

/-!
# Shallow embedding of the turbopack chunking core

This file embeds the chunk-content walk of
`crates/turbopack-core/src/chunk/mod.rs` into Lean:

* `ModuleId.parse` / `displayModuleId` — the module id parse/display pair;
* `referenceToGraphNodes` — the reference classifier;
* `visitStep` — the visitor's per-edge decision (`ChunkContentVisit::visit`);
* `walk` — the reverse-topological traversal driving the classifier;
* `chunkContent` / `chunkContentSplit` — the public entry points.

Assets, references and chunk items are identified by natural numbers; the
capability surfaces (trait objects, the chunk-item factory, resolution) are
collected in a `World` record, one function per trait method.  Suspension and
memoization are irrelevant for the proved properties, so every operation is a
pure function of the `World`.
-/

set_option autoImplicit false

namespace Turbo

/-- `ChunkingType` from `chunk/mod.rs`: how a referenced asset is placed. -/
inductive ChunkingType where
  | placed
  | placedOrParallel
  | parallel
  | isolatedParallel
  | separate
  | separateAsync
deriving DecidableEq, Repr

/-- Modelled from the spec: `AvailabilityInfo`
(`crates/turbopack-core/src/chunk/availability_info.rs`, not under `src/`) is
either `Root { current_availability_root }` or an extension carrying an
available-assets set. -/
inductive AvailabilityInfo where
  | root (currentAvailabilityRoot : Nat)
  | complete (availableAssets : List Nat)
deriving DecidableEq, Repr

/-- Modelled from the spec: `AvailabilityInfo::available_assets` returns the
available-assets set when present. -/
def AvailabilityInfo.availableAssets? : AvailabilityInfo → Option (List Nat)
  | .root _ => none
  | .complete l => some l

/-- Modelled from the spec: the classifier's availability check
(`available_assets.includes(asset)` guarded by `available_assets()`). -/
def availContains (info : AvailabilityInfo) (a : Nat) : Bool :=
  match info.availableAssets? with
  | some l => decide (a ∈ l)
  | none => false

/-- A chunk item value.  The chunk-item factory (`FromChunkableAsset`) is
memoized on its inputs, so an item is identified by the asset it was created
from, whether it came from `from_async_asset` (a manifest loader), and — for
loaders — the availability info the factory was given. -/
structure ChunkItemV where
  asset : Nat
  isLoader : Bool
  loaderInfo : Option AvailabilityInfo
deriving DecidableEq, Repr

/-- A chunk value: `ChunkableAsset::as_chunk` is memoized on the asset and the
availability info it is invoked with, so a chunk is identified by that pair. -/
structure ChunkV where
  asset : Nat
  info : AvailabilityInfo
deriving DecidableEq, Repr

/-- An async chunk group value: `ChunkGroup::from_asset(asset, ctx, info)` is
memoized on the asset and the availability info. -/
structure GroupV where
  asset : Nat
  info : AvailabilityInfo
deriving DecidableEq, Repr

/-- `ChunkContentGraphNode` from `chunk/mod.rs`. -/
inductive GraphNode where
  | chunkItem (item : ChunkItemV)
  | availableAsset (asset : Nat)
  | chunk (c : ChunkV)
  | asyncChunkGroup (g : GroupV)
  | externalAssetReference (r : Nat)
deriving DecidableEq, Repr

/-- An edge of the chunk-content graph: the optional dedup key
`(asset, chunking_type)` together with the target node. -/
abbrev CEdge := Option (Nat × ChunkingType) × GraphNode

/-- The capability surfaces consumed by the walk, one pure function per trait
method.  Asset and reference identities are natural numbers. -/
structure World where
  /-- does the reference downcast to `ChunkableAssetReference`? -/
  refChunkable : Nat → Bool
  /-- `ChunkableAssetReference::chunking_type` -/
  refChunkingType : Nat → Option ChunkingType
  /-- primary assets of `AssetReference::resolve_reference` -/
  refPrimaryAssets : Nat → List Nat
  /-- does the asset sidecast to `ChunkableAsset`? -/
  assetChunkable : Nat → Bool
  /-- `Asset::ident` rendered to a string -/
  assetIdent : Nat → String
  /-- is `I::from_asset(ctx, asset)` `Some`? -/
  fromAssetOk : Nat → Bool
  /-- is `I::from_async_asset(ctx, asset, info)` `Some`? -/
  fromAsyncOk : Nat → Bool
  /-- `ChunkItem::references`, as reference identities -/
  itemRefs : ChunkItemV → List Nat
  /-- `ChunkingContext::can_be_in_same_chunk(entry, asset)` -/
  canBeInSameChunk : Nat → Nat → Bool

/-- `ChunkContentContext` from `chunk/mod.rs` (the chunking context itself
lives in `World`). -/
structure ChunkContentContext where
  entry : Nat
  availabilityInfo : AvailabilityInfo
  split : Bool
deriving DecidableEq, Repr

/-- The fatal error message of the `Placed` branch, exactly as formatted by
the `anyhow!` call in `reference_to_graph_nodes` (the `\`-continuation joins
the two string lines, keeping the double space after "the"). -/
def placedErrMsg (w : World) (a : Nat) : String :=
  "Asset " ++ w.assetIdent a ++
    " was requested to be placed into the  same chunk, but this wasn't possible"

/-- Outcome of classifying one resolved primary asset inside the per-asset
loop of `reference_to_graph_nodes`: push an edge, early-return the whole
reference as external, or fail fatally. -/
inductive ClassifyStep where
  | push (key : Option (Nat × ChunkingType)) (node : GraphNode)
  | wholeExternal
  | fatal (msg : String)
deriving DecidableEq, Repr

/-- One iteration of the per-asset loop of `reference_to_graph_nodes`. -/
def classifyAsset (w : World) (ctx : ChunkContentContext) (ct : ChunkingType)
    (a : Nat) : ClassifyStep :=
  if availContains ctx.availabilityInfo a then
    .push (some (a, ct)) (.availableAsset a)
  else if !w.assetChunkable a then
    .wholeExternal
  else
    match ct with
    | .placed =>
        if w.fromAssetOk a then
          .push (some (a, ct)) (.chunkItem ⟨a, false, none⟩)
        else
          .fatal (placedErrMsg w a)
    | .parallel =>
        .push (some (a, ct)) (.chunk ⟨a, ctx.availabilityInfo⟩)
    | .isolatedParallel =>
        .push (some (a, ct)) (.chunk ⟨a, .root a⟩)
    | .placedOrParallel =>
        if !ctx.split && w.canBeInSameChunk ctx.entry a && w.fromAssetOk a then
          .push (some (a, ct)) (.chunkItem ⟨a, false, none⟩)
        else
          .push (some (a, ct)) (.chunk ⟨a, ctx.availabilityInfo⟩)
    | .separate =>
        .push (some (a, ct)) (.asyncChunkGroup ⟨a, ctx.availabilityInfo⟩)
    | .separateAsync =>
        if w.fromAsyncOk a then
          .push (some (a, ct)) (.chunkItem ⟨a, true, some ctx.availabilityInfo⟩)
        else
          .wholeExternal

/-- The asset loop of `reference_to_graph_nodes`: `graph_nodes` is the `acc`
accumulator; a `wholeExternal` step discards it and returns the single
external edge, a `fatal` step propagates the error. -/
def classifyLoop (w : World) (ctx : ChunkContentContext) (r : Nat)
    (ct : ChunkingType) : List Nat → List CEdge → Except String (List CEdge)
  | [], acc => .ok acc
  | a :: rest, acc =>
      match classifyAsset w ctx ct a with
      | .push k n => classifyLoop w ctx r ct rest (acc ++ [(k, n)])
      | .wholeExternal => .ok [(none, .externalAssetReference r)]
      | .fatal msg => .error msg

/-- `reference_to_graph_nodes` from `chunk/mod.rs`. -/
def referenceToGraphNodes (w : World) (ctx : ChunkContentContext) (r : Nat) :
    Except String (List CEdge) :=
  if !w.refChunkable r then
    .ok [(none, .externalAssetReference r)]
  else
    match w.refChunkingType r with
    | none => .ok [(none, .externalAssetReference r)]
    | some ct => classifyLoop w ctx r ct (w.refPrimaryAssets r) []

/-- Classify a list of references and concatenate the resulting edges, the
first error winning (the `try_join` + `flatten` in `ChunkContentVisit::edges`). -/
def refsToEdges (w : World) (ctx : ChunkContentContext) :
    List Nat → Except String (List CEdge)
  | [] => .ok []
  | r :: rs =>
      match referenceToGraphNodes w ctx r with
      | .error m => .error m
      | .ok l =>
          match refsToEdges w ctx rs with
          | .error m => .error m
          | .ok l' => .ok (l ++ l')

/-- `ChunkContentVisit::edges`: only `ChunkItem` nodes expand further. -/
def nodeEdges (w : World) (ctx : ChunkContentContext) :
    GraphNode → Except String (List CEdge)
  | .chunkItem item => refsToEdges w ctx (w.itemRefs item)
  | _ => .ok []

/-- `MAX_CHUNK_ITEMS_COUNT` from `chunk/mod.rs`. -/
def MAX_CHUNK_ITEMS_COUNT : Nat := 5000

/-- The mutable state of `ChunkContentVisit` (the dedup set is kept as the
list of inserted keys, newest first). -/
structure VisitState where
  chunkItemsCount : Nat
  processedAssets : List (ChunkingType × Nat)
deriving DecidableEq, Repr

/-- `VisitControlFlow` of the per-edge decision. -/
inductive StepResult where
  | cont (st : VisitState)
  | skip (st : VisitState)
  | abort
deriving DecidableEq, Repr

/-- `ChunkContentVisit::visit`: edges without a key always continue; a key
already processed is skipped; a fresh key is inserted and, for `ChunkItem`
nodes, the count is bumped and checked against `MAX_CHUNK_ITEMS_COUNT` when
`split == false`. -/
def visitStep (split : Bool) (st : VisitState) (e : CEdge) : StepResult :=
  match e.1 with
  | none => .cont st
  | some (a, ct) =>
      if (ct, a) ∈ st.processedAssets then
        .skip st
      else
        let st1 : VisitState :=
          { st with processedAssets := (ct, a) :: st.processedAssets }
        match e.2 with
        | .chunkItem _ =>
            let st2 : VisitState :=
              { st1 with chunkItemsCount := st1.chunkItemsCount + 1 }
            if !split && MAX_CHUNK_ITEMS_COUNT ≤ st2.chunkItemsCount then
              .abort
            else
              .cont st2
        | _ => .cont st1

/-- Result of one traversal: the accepted edges in reverse-topological order,
the final state, or one of the early exits. -/
inductive WalkRes where
  | done (st : VisitState) (out : List CEdge)
  | aborted
  | failed (msg : String)
  | fuelOut
deriving DecidableEq, Repr

/-- Modelled from the spec: the `ReverseTopological` graph traversal of
`turbo_tasks::graph` (not under `src/`), specialized to `ChunkContentVisit`.
Each pending edge goes through `visitStep`; an accepted edge has its node's
outgoing edges expanded first, the node's edge being emitted after them
(reverse-topological order); a skipped edge is dropped.  The `fuel` argument
only forces termination in Lean: each recursion level consumes one unit. -/
def walk (w : World) (ctx : ChunkContentContext) :
    Nat → VisitState → List CEdge → WalkRes
  | 0, _, _ => .fuelOut
  | _ + 1, st, [] => .done st []
  | fuel + 1, st, e :: rest =>
      match visitStep ctx.split st e with
      | .abort => .aborted
      | .skip st1 => walk w ctx fuel st1 rest
      | .cont st1 =>
          match nodeEdges w ctx e.2 with
          | .error msg => .failed msg
          | .ok children =>
              match walk w ctx fuel st1 children with
              | .done st2 outC =>
                  match walk w ctx fuel st2 rest with
                  | .done st3 outR => .done st3 (outC ++ e :: outR)
                  | r => r
              | r => r

/-- `ChunkContentResult` from `chunk/mod.rs`. -/
structure ChunkContentResult where
  chunkItems : List ChunkItemV
  chunks : List ChunkV
  asyncChunkGroups : List GroupV
  externalAssetReferences : List Nat
  availabilityInfo : AvailabilityInfo
deriving DecidableEq, Repr

/-- The bucketing loop at the end of `chunk_content_internal_parallel`:
`AvailableAsset` nodes are discarded, the others keep their order. -/
def assemble (nodes : List GraphNode) (info : AvailabilityInfo) :
    ChunkContentResult where
  chunkItems := nodes.filterMap fun n =>
    match n with | .chunkItem i => some i | _ => none
  chunks := nodes.filterMap fun n =>
    match n with | .chunk c => some c | _ => none
  asyncChunkGroups := nodes.filterMap fun n =>
    match n with | .asyncChunkGroup g => some g | _ => none
  externalAssetReferences := nodes.filterMap fun n =>
    match n with | .externalAssetReference r => some r | _ => none
  availabilityInfo := info

/-- The root-edge construction of `chunk_content_internal_parallel`: every
entry becomes a `ChunkItem` edge keyed `(entry, Placed)` through
`I::from_asset(...).unwrap()`; a `None` factory result is the `unwrap` panic,
rendered as `none` here. -/
def buildRootEdges (w : World) : List Nat → Option (List CEdge)
  | [] => some []
  | e :: rest =>
      if w.fromAssetOk e then
        (buildRootEdges w rest).map
          (fun l => (some (e, ChunkingType.placed),
            GraphNode.chunkItem ⟨e, false, none⟩) :: l)
      else
        none

/-- Observable outcome of an entry point: a value, a propagated error
(`anyhow::Error`), a panic, or fuel exhaustion (a Lean-only artifact of the
fuelled traversal). -/
inductive Outcome (α : Type) where
  | ok (val : α)
  | error (msg : String)
  | panic
  | fuelOut
deriving DecidableEq, Repr

/-- `chunk_content_internal_parallel` from `chunk/mod.rs`: build the root
edges (entry first, then the additional entries), run the traversal, and
bucket the resulting graph nodes; an aborted traversal yields `ok none`. -/
def chunkContentInternal (w : World) (fuel : Nat) (entry : Nat)
    (additionalEntries : List Nat) (availabilityInfo : AvailabilityInfo)
    (split : Bool) : Outcome (Option ChunkContentResult) :=
  match buildRootEdges w (entry :: additionalEntries) with
  | none => .panic
  | some rootEdges =>
      match walk w ⟨entry, availabilityInfo, split⟩ fuel ⟨0, []⟩ rootEdges with
      | .aborted => .ok none
      | .failed msg => .error msg
      | .fuelOut => .fuelOut
      | .done _ out => .ok (some (assemble (out.map Prod.snd) availabilityInfo))

/-- `chunk_content` from `chunk/mod.rs`: the non-split entry point. -/
def chunkContent (w : World) (fuel : Nat) (entry : Nat)
    (additionalEntries : List Nat) (availabilityInfo : AvailabilityInfo) :
    Outcome (Option ChunkContentResult) :=
  chunkContentInternal w fuel entry additionalEntries availabilityInfo false

/-- `chunk_content_split` from `chunk/mod.rs`: the split entry point; the
`.map(|o| o.unwrap())` turns a (supposedly unreachable) `ok none` into a
panic. -/
def chunkContentSplit (w : World) (fuel : Nat) (entry : Nat)
    (additionalEntries : List Nat) (availabilityInfo : AvailabilityInfo) :
    Outcome ChunkContentResult :=
  match chunkContentInternal w fuel entry additionalEntries availabilityInfo true with
  | .ok (some r) => .ok r
  | .ok none => .panic
  | .error m => .error m
  | .panic => .panic
  | .fuelOut => .fuelOut

/-- Does an entry-point outcome expose the "no result" sentinel? -/
def Outcome.isNoResult {α : Type} : Outcome (Option α) → Bool
  | .ok none => true
  | _ => false

/-! ## `ModuleId` -/

/-- `ModuleId` from `chunk/mod.rs`: a number or a string. -/
inductive ModuleId where
  | number (n : Nat)
  | string (s : String)
deriving DecidableEq, Repr

/-- Rust's `u32::from_str`, used by `ModuleId::parse`: an optional leading
`+`, then one or more ASCII digits, the value fitting in 32 bits (checked
multiply/add overflow is equivalent to the final value exceeding `u32::MAX`,
since the accumulated value is monotone over the digit prefixes). -/
def u32FromDigits (digits : List Char) : Option Nat :=
  if digits.isEmpty then none
  else if digits.all Char.isDigit then
    if digits.foldl (fun acc c => acc * 10 + (c.toNat - 48)) 0 < 2 ^ 32 then
      some (digits.foldl (fun acc c => acc * 10 + (c.toNat - 48)) 0)
    else none
  else none

/-- The sign handling of Rust's `u32::from_str`: a single leading `+` is
stripped, the rest must be digits. -/
def u32FromStr (s : String) : Option Nat :=
  u32FromDigits (if s.data.head? = some '+' then s.data.tail else s.data)

/-- `ModuleId::parse` from `chunk/mod.rs`: a string parsing as `u32` becomes
`Number`, anything else becomes `String`. -/
def ModuleId.parse (s : String) : ModuleId :=
  match u32FromStr s with
  | some n => .number n
  | none => .string s

/-- Decimal digits of a natural number, most significant first, with
structural fuel (any fuel above the number works; `natDecChars` passes
`n + 1`). -/
def natDecCharsAux : Nat → Nat → List Char
  | 0, _ => []
  | fuel + 1, n =>
      if n < 10 then [Nat.digitChar n]
      else natDecCharsAux fuel (n / 10) ++ [Nat.digitChar (n % 10)]

/-- Decimal digits of a natural number, most significant first (the rendering
of Rust's `write!("{}", i)` for an unsigned integer). -/
def natDecChars (n : Nat) : List Char :=
  natDecCharsAux (n + 1) n

/-- The `Display` impl for `ModuleId`: decimal for `Number`, identity for
`String`. -/
def displayModuleId : ModuleId → String
  | .number n => ⟨natDecChars n⟩
  | .string s => s

/-! ## `ChunkGroup::evaluated` -/

/-- An ordered list of evaluatable assets (asset identities). -/
abbrev EvaluatableAssets := List Nat

/-- Modelled from the spec: `EvaluatableAssets::with_entry`
(`crates/turbopack-core/src/chunk/evaluate.rs`, not under `src/`) appends the
given entry to the collection (spec §4.6: "`with_entry(asset)` (append)"). -/
def EvaluatableAssets.withEntry (l : EvaluatableAssets) (e : Nat) :
    EvaluatableAssets :=
  l ++ [e]

/-- The `ChunkGroup` value: its entry chunk and its ordered evaluatable
assets (the chunking context is elided, as it is carried along unchanged). -/
structure ChunkGroupS where
  entry : ChunkV
  evaluatableAssets : EvaluatableAssets
deriving DecidableEq, Repr

/-- `ChunkableAsset::as_root_chunk` default implementation:
`as_chunk(ctx, Root { current_availability_root: self })`. -/
def asRootChunk (a : Nat) : ChunkV := ⟨a, .root a⟩

/-- `ChunkGroup::evaluated` from `chunk/mod.rs`: the entry chunk is the main
entry's root chunk, and the main entry is appended to the other evaluatable
entries via `with_entry`. -/
def ChunkGroup.evaluated (mainEntry : Nat) (otherEntries : EvaluatableAssets) :
    ChunkGroupS :=
  ⟨asRootChunk mainEntry, otherEntries.withEntry mainEntry⟩

/-! ## Observation helpers -/

/-- Is the edge's node a `ChunkItem` node? -/
def isItemEdge (e : CEdge) : Bool :=
  match e.2 with
  | .chunkItem _ => true
  | _ => false

/-- Does a graph node carry the asset `A` as a `ChunkItem`, `Chunk` or
`AsyncChunkGroup` (the three buckets of the output)? -/
def mentionsAsset (A : Nat) : GraphNode → Bool
  | .chunkItem i => i.asset == A
  | .chunk c => c.asset == A
  | .asyncChunkGroup g => g.asset == A
  | _ => false

/-! ## Concrete worlds for witnesses and counterexamples -/

/-- A world where every capability is trivial: all references chunkable with
the default chunking type, nothing resolves, every asset placeable. -/
def baseWorld : World where
  refChunkable := fun _ => true
  refChunkingType := fun _ => some .placedOrParallel
  refPrimaryAssets := fun _ => []
  assetChunkable := fun _ => true
  assetIdent := fun _ => ""
  fromAssetOk := fun _ => true
  fromAsyncOk := fun _ => true
  itemRefs := fun _ => []
  canBeInSameChunk := fun _ _ => true

/-- A world whose chunk-item factory rejects every asset. -/
def rejectEntryWorld : World :=
  { baseWorld with fromAssetOk := fun _ => false }

/-- Entry `0` with a `Placed` edge to `1`, a `Parallel` edge to `2` and a
`Separate` edge to `3`. -/
def exampleWorld : World :=
  { baseWorld with
    refChunkingType := fun r =>
      if r = 0 then some .placed
      else if r = 1 then some .parallel
      else some .separate
    refPrimaryAssets := fun r =>
      if r = 0 then [1] else if r = 1 then [2] else [3]
    itemRefs := fun i => if i.asset = 0 then [0, 1, 2] else [] }

/-- Entry `0` with an `IsolatedParallel` edge to `1` and a `Parallel` edge to
`2`. -/
def parWorld : World :=
  { baseWorld with
    refChunkingType := fun r =>
      if r = 0 then some .isolatedParallel else some .parallel
    refPrimaryAssets := fun r => if r = 0 then [1] else [2]
    itemRefs := fun i => if i.asset = 0 then [0, 1] else [] }

/-- Entry `0` with a `Placed` edge to asset `1` (ident `"X"`), which the
chunk-item factory rejects. -/
def placedFailWorld : World :=
  { baseWorld with
    refChunkingType := fun _ => some .placed
    refPrimaryAssets := fun _ => [1]
    assetIdent := fun a => if a = 1 then "X" else "E"
    fromAssetOk := fun a => a != 1
    itemRefs := fun i => if i.asset = 0 then [0] else [] }

/-- Like `placedFailWorld`, but the factory accepts asset `1`. -/
def placedOkWorld : World :=
  { placedFailWorld with fromAssetOk := fun _ => true }

/-- Every reference resolves to asset `1` with the default `PlacedOrParallel`
chunking type. -/
def popWorld : World :=
  { baseWorld with refPrimaryAssets := fun _ => [1] }

/-- A `Placed` reference to asset `5`, which is not chunkable. -/
def nonChunkableWorld : World :=
  { baseWorld with
    refChunkingType := fun _ => some .placed
    refPrimaryAssets := fun _ => [5]
    assetChunkable := fun a => a != 5 }

/-! ## Classifier lemmas -/

/-- Every `push` step of the per-asset loop is keyed `(asset, chunking_type)`. -/
theorem classifyAsset_push_key (w : World) (ctx : ChunkContentContext)
    (ct : ChunkingType) (a : Nat) (k : Option (Nat × ChunkingType))
    (n : GraphNode) (h : classifyAsset w ctx ct a = .push k n) :
    k = some (a, ct) := by
  unfold classifyAsset at h
  split at h
  · injection h with hk _; exact hk.symm
  · split at h
    · cases h
    · cases ct <;> simp only at h <;>
        first
          | (injection h with hk _; exact hk.symm)
          | (split at h <;>
              first
                | (injection h with hk _; exact hk.symm)
                | cases h)

/-- Closure of a predicate under the per-asset loop of
`reference_to_graph_nodes`. -/
theorem classifyLoop_ok_forall (w : World) (ctx : ChunkContentContext) (r : Nat)
    (ct : ChunkingType) (Q : CEdge → Prop)
    (hpush : ∀ a k n, classifyAsset w ctx ct a = .push k n → Q (k, n))
    (hext : Q (none, .externalAssetReference r)) :
    ∀ (assets : List Nat) (acc l : List CEdge), (∀ e ∈ acc, Q e) →
      classifyLoop w ctx r ct assets acc = .ok l → ∀ e ∈ l, Q e := by
  intro assets
  induction assets with
  | nil =>
      intro acc l hacc h e he
      simp only [classifyLoop] at h
      cases h
      exact hacc e he
  | cons a rest ih =>
      intro acc l hacc h e he
      simp only [classifyLoop] at h
      cases hca : classifyAsset w ctx ct a with
      | push k n =>
          rw [hca] at h
          refine ih (acc ++ [(k, n)]) l ?_ h e he
          intro e' he'
          rcases List.mem_append.1 he' with h1 | h1
          · exact hacc e' h1
          · rcases List.mem_singleton.1 h1 with rfl
            exact hpush a k n hca
      | wholeExternal =>
          rw [hca] at h
          cases h
          rcases List.mem_singleton.1 he with rfl
          exact hext
      | fatal m =>
          rw [hca] at h
          cases h

/-- Closure of a predicate under `reference_to_graph_nodes`. -/
theorem referenceToGraphNodes_ok_forall (w : World) (ctx : ChunkContentContext)
    (Q : CEdge → Prop)
    (hpush : ∀ ct a k n, classifyAsset w ctx ct a = .push k n → Q (k, n))
    (hext : ∀ r, Q (none, .externalAssetReference r)) :
    ∀ r l, referenceToGraphNodes w ctx r = .ok l → ∀ e ∈ l, Q e := by
  intro r l h e he
  unfold referenceToGraphNodes at h
  split at h
  · cases h
    rcases List.mem_singleton.1 he with rfl
    exact hext r
  · split at h
    · cases h
      rcases List.mem_singleton.1 he with rfl
      exact hext r
    · exact classifyLoop_ok_forall w ctx r _ Q (hpush _) (hext r)
        (w.refPrimaryAssets r) [] l (by intro e' he'; cases he') h e he

/-- Closure of a predicate under classifying a list of references. -/
theorem refsToEdges_ok_forall (w : World) (ctx : ChunkContentContext)
    (Q : CEdge → Prop)
    (hpush : ∀ ct a k n, classifyAsset w ctx ct a = .push k n → Q (k, n))
    (hext : ∀ r, Q (none, .externalAssetReference r)) :
    ∀ rs l, refsToEdges w ctx rs = .ok l → ∀ e ∈ l, Q e := by
  intro rs
  induction rs with
  | nil =>
      intro l h e he
      simp only [refsToEdges] at h
      cases h
      cases he
  | cons r rest ih =>
      intro l h e he
      simp only [refsToEdges] at h
      cases hr : referenceToGraphNodes w ctx r with
      | error m => rw [hr] at h; cases h
      | ok l1 =>
          rw [hr] at h
          cases hrest : refsToEdges w ctx rest with
          | error m => rw [hrest] at h; cases h
          | ok l2 =>
              rw [hrest] at h
              cases h
              rcases List.mem_append.1 he with h1 | h1
              · exact referenceToGraphNodes_ok_forall w ctx Q hpush hext r l1 hr e h1
              · exact ih l2 hrest e h1

/-- Closure of a predicate under `ChunkContentVisit::edges`. -/
theorem nodeEdges_ok_forall (w : World) (ctx : ChunkContentContext)
    (Q : CEdge → Prop)
    (hpush : ∀ ct a k n, classifyAsset w ctx ct a = .push k n → Q (k, n))
    (hext : ∀ r, Q (none, .externalAssetReference r)) :
    ∀ n l, nodeEdges w ctx n = .ok l → ∀ e ∈ l, Q e := by
  intro n l h e he
  cases n with
  | chunkItem item => exact refsToEdges_ok_forall w ctx Q hpush hext _ l h e he
  | availableAsset a => cases h; cases he
  | chunk c => cases h; cases he
  | asyncChunkGroup g => cases h; cases he
  | externalAssetReference r => cases h; cases he

/-! ## Visitor lemmas -/

/-- An edge without a key always continues, leaving the state unchanged. -/
theorem visitStep_none (split : Bool) (st : VisitState) (n : GraphNode) :
    visitStep split st (none, n) = .cont st := rfl

/-- An edge whose key was already processed is skipped (and, by the shape of
`walk`, not expanded), leaving the state unchanged. -/
theorem visitStep_mem_skip (split : Bool) (st : VisitState) (a : Nat)
    (ct : ChunkingType) (n : GraphNode)
    (h : (ct, a) ∈ st.processedAssets) :
    visitStep split st (some (a, ct), n) = .skip st := by
  simp [visitStep, h]

/-- A skip never changes the state. -/
theorem visitStep_skip_eq {split : Bool} {st st1 : VisitState} {e : CEdge}
    (h : visitStep split st e = .skip st1) : st1 = st := by
  obtain ⟨k, n⟩ := e
  cases k with
  | none => cases h
  | some p =>
      obtain ⟨a, ct⟩ := p
      by_cases hm : (ct, a) ∈ st.processedAssets
      · rw [visitStep_mem_skip split st a ct n hm] at h
        injection h with h1
        exact h1.symm
      · cases n <;> simp only [visitStep, hm, ite_false] at h <;>
          first
            | (split at h <;> cases h)
            | cases h

/-- Full description of a continuing step: either the edge is unkeyed and the
state is untouched, or its key is fresh, gets inserted, and the chunk-item
count is bumped exactly when the node is a `ChunkItem` (staying below the
bound when `split == false`). -/
theorem visitStep_cont_spec {split : Bool} {st st1 : VisitState} {e : CEdge}
    (h : visitStep split st e = .cont st1) :
    (e.1 = none ∧ st1 = st) ∨
    (∃ a ct, e.1 = some (a, ct) ∧ (ct, a) ∉ st.processedAssets ∧
      st1.processedAssets = (ct, a) :: st.processedAssets ∧
      ((isItemEdge e = true ∧ st1.chunkItemsCount = st.chunkItemsCount + 1 ∧
          (split = false → st1.chunkItemsCount < MAX_CHUNK_ITEMS_COUNT)) ∨
        (isItemEdge e = false ∧ st1.chunkItemsCount = st.chunkItemsCount))) := by
  obtain ⟨k, n⟩ := e
  cases k with
  | none =>
      left
      refine ⟨rfl, ?_⟩
      injection h with h1
      exact h1.symm
  | some p =>
      obtain ⟨a, ct⟩ := p
      right
      by_cases hm : (ct, a) ∈ st.processedAssets
      · rw [visitStep_mem_skip split st a ct n hm] at h
        cases h
      · refine ⟨a, ct, rfl, hm, ?_⟩
        cases n with
        | chunkItem i =>
            simp only [visitStep, hm, ite_false] at h
            split at h
            · cases h
            · rename_i hcond
              injection h with h1
              subst h1
              refine ⟨rfl, Or.inl ⟨rfl, rfl, fun hsf => ?_⟩⟩
              subst hsf
              simp only [Bool.not_false, Bool.true_and,
                decide_eq_true_eq] at hcond
              show st.chunkItemsCount + 1 < MAX_CHUNK_ITEMS_COUNT
              omega
        | availableAsset b =>
            simp only [visitStep, hm, ite_false] at h
            injection h with h1
            subst h1
            exact ⟨rfl, Or.inr ⟨rfl, rfl⟩⟩
        | chunk c =>
            simp only [visitStep, hm, ite_false] at h
            injection h with h1
            subst h1
            exact ⟨rfl, Or.inr ⟨rfl, rfl⟩⟩
        | asyncChunkGroup g =>
            simp only [visitStep, hm, ite_false] at h
            injection h with h1
            subst h1
            exact ⟨rfl, Or.inr ⟨rfl, rfl⟩⟩
        | externalAssetReference r =>
            simp only [visitStep, hm, ite_false] at h
            injection h with h1
            subst h1
            exact ⟨rfl, Or.inr ⟨rfl, rfl⟩⟩

/-- With `split == true` the per-edge decision never aborts. -/
theorem visitStep_true_ne_abort (st : VisitState) (e : CEdge) :
    visitStep true st e ≠ .abort := by
  obtain ⟨k, n⟩ := e
  cases k with
  | none => simp [visitStep]
  | some p =>
      obtain ⟨a, ct⟩ := p
      by_cases hm : (ct, a) ∈ st.processedAssets
      · simp [visitStep, hm]
      · cases n <;> simp [visitStep, hm]

/-! ## Walk lemmas -/

/-- Closure of an edge predicate under the whole traversal: if the classifier
only produces edges satisfying `Q` and the starting edges satisfy `Q`, every
accepted edge satisfies `Q`. -/
theorem walk_ok_forall (w : World) (ctx : ChunkContentContext)
    (Q : CEdge → Prop)
    (hedges : ∀ n l, nodeEdges w ctx n = .ok l → ∀ e ∈ l, Q e) :
    ∀ (fuel : Nat) (st : VisitState) (edges : List CEdge) (st' : VisitState)
      (out : List CEdge), (∀ e ∈ edges, Q e) →
      walk w ctx fuel st edges = .done st' out → ∀ e ∈ out, Q e := by
  intro fuel
  induction fuel with
  | zero =>
      intro st edges st' out _ h
      simp only [walk] at h
      cases h
  | succ fuel ih =>
      intro st edges st' out hQ h
      cases edges with
      | nil =>
          simp only [walk] at h
          cases h
          intro e he
          cases he
      | cons e rest =>
          simp only [walk] at h
          cases hv : visitStep ctx.split st e with
          | abort => simp only [hv] at h; cases h
          | skip st1 =>
              simp only [hv] at h
              exact ih st1 rest st' out
                (fun e' he' => hQ e' (List.mem_cons_of_mem _ he')) h
          | cont st1 =>
              simp only [hv] at h
              cases hne : nodeEdges w ctx e.2 with
              | error m => simp only [hne] at h; cases h
              | ok children =>
                  simp only [hne] at h
                  cases hwc : walk w ctx fuel st1 children with
                  | done st2 outC =>
                      simp only [hwc] at h
                      cases hwr : walk w ctx fuel st2 rest with
                      | done st3 outR =>
                          simp only [hwr] at h
                          cases h
                          intro e' he'
                          rcases List.mem_append.1 he' with h1 | h1
                          · exact ih st1 children st2 outC
                              (hedges e.2 children hne) hwc e' h1
                          · rcases List.mem_cons.1 h1 with rfl | h2
                            · exact hQ e' (List.mem_cons_self _ _)
                            · exact ih st2 rest _ outR
                                (fun x hx => hQ x (List.mem_cons_of_mem _ hx))
                                hwr e' h2
                      | aborted => simp only [hwr] at h; cases h
                      | failed m => simp only [hwr] at h; cases h
                      | fuelOut => simp only [hwr] at h; cases h
                  | aborted => simp only [hwc] at h; cases h
                  | failed m => simp only [hwc] at h; cases h
                  | fuelOut => simp only [hwc] at h; cases h

/-- With `split == true` the traversal never aborts: the size check is
disabled. -/
theorem walk_true_no_abort (w : World) (ctx : ChunkContentContext)
    (hsplit : ctx.split = true) :
    ∀ (fuel : Nat) (st : VisitState) (edges : List CEdge),
      walk w ctx fuel st edges ≠ .aborted := by
  intro fuel
  induction fuel with
  | zero =>
      intro st edges h
      simp only [walk] at h
      cases h
  | succ fuel ih =>
      intro st edges h
      cases edges with
      | nil =>
          simp only [walk] at h
          cases h
      | cons e rest =>
          simp only [walk] at h
          cases hv : visitStep ctx.split st e with
          | abort =>
              rw [hsplit] at hv
              exact visitStep_true_ne_abort st e hv
          | skip st1 =>
              simp only [hv] at h
              exact ih st1 rest h
          | cont st1 =>
              simp only [hv] at h
              cases hne : nodeEdges w ctx e.2 with
              | error m => simp only [hne] at h; cases h
              | ok children =>
                  simp only [hne] at h
                  cases hwc : walk w ctx fuel st1 children with
                  | done st2 outC =>
                      simp only [hwc] at h
                      cases hwr : walk w ctx fuel st2 rest with
                      | done st3 outR => simp only [hwr] at h; cases h
                      | aborted => exact ih st2 rest hwr
                      | failed m => simp only [hwr] at h; cases h
                      | fuelOut => simp only [hwr] at h; cases h
                  | aborted => exact ih st1 children hwc
                  | failed m => simp only [hwc] at h; cases h
                  | fuelOut => simp only [hwc] at h; cases h

/-- Counting invariant of the traversal (used for the size bound): the
chunk-item count never decreases, it bounds the number of accepted
`ChunkItem` edges, and when `split == false` a completed traversal keeps it
below `MAX_CHUNK_ITEMS_COUNT` (assuming every `ChunkItem` edge in play is
keyed, which is true of the root edges and everything the classifier
emits). -/
theorem walk_count (w : World) (ctx : ChunkContentContext)
    (hsplit : ctx.split = false)
    (hedges : ∀ n l, nodeEdges w ctx n = .ok l → ∀ e ∈ l,
      isItemEdge e = true → e.1.isSome = true) :
    ∀ (fuel : Nat) (st : VisitState) (edges : List CEdge) (st' : VisitState)
      (out : List CEdge),
      (∀ e ∈ edges, isItemEdge e = true → e.1.isSome = true) →
      walk w ctx fuel st edges = .done st' out →
      st.chunkItemsCount ≤ st'.chunkItemsCount ∧
      out.countP isItemEdge + st.chunkItemsCount ≤ st'.chunkItemsCount ∧
      (st.chunkItemsCount < MAX_CHUNK_ITEMS_COUNT →
        st'.chunkItemsCount < MAX_CHUNK_ITEMS_COUNT) := by
  intro fuel
  induction fuel with
  | zero =>
      intro st edges st' out _ h
      simp only [walk] at h
      cases h
  | succ fuel ih =>
      intro st edges st' out hK h
      cases edges with
      | nil =>
          simp only [walk] at h
          cases h
          simp
      | cons e rest =>
          simp only [walk] at h
          cases hv : visitStep ctx.split st e with
          | abort => simp only [hv] at h; cases h
          | skip st1 =>
              simp only [hv] at h
              have hst : st1 = st := visitStep_skip_eq hv
              subst hst
              exact ih _ rest st' out
                (fun x hx => hK x (List.mem_cons_of_mem _ hx)) h
          | cont st1 =>
              simp only [hv] at h
              cases hne : nodeEdges w ctx e.2 with
              | error m => simp only [hne] at h; cases h
              | ok children =>
                  simp only [hne] at h
                  cases hwc : walk w ctx fuel st1 children with
                  | done st2 outC =>
                      simp only [hwc] at h
                      cases hwr : walk w ctx fuel st2 rest with
                      | done st3 outR =>
                          simp only [hwr] at h
                          cases h
                          obtain ⟨ihc1, ihc2, ihc3⟩ := ih st1 children st2 outC
                            (hedges e.2 children hne) hwc
                          obtain ⟨ihr1, ihr2, ihr3⟩ := ih st2 rest _ outR
                            (fun x hx => hK x (List.mem_cons_of_mem _ hx)) hwr
                          rcases visitStep_cont_spec hv with
                            ⟨hk, rfl⟩ | ⟨a, ct, hk, _, _, hcase⟩
                          · have hie : isItemEdge e = false := by
                              cases hi : isItemEdge e with
                              | false => rfl
                              | true =>
                                  have h2 := hK e (List.mem_cons_self _ _) hi
                                  rw [hk] at h2
                                  cases h2
                            refine ⟨le_trans ihc1 ihr1, ?_, fun hb => ihr3 (ihc3 hb)⟩
                            simp [List.countP_append, List.countP_cons, hie]
                            omega
                          · rcases hcase with ⟨hit, hcount, hlt⟩ | ⟨hif, hcount⟩
                            · have hlt1 : st1.chunkItemsCount < MAX_CHUNK_ITEMS_COUNT :=
                                hlt hsplit
                              refine ⟨?_, ?_, fun _ => ihr3 (ihc3 hlt1)⟩
                              · omega
                              · simp [List.countP_append, List.countP_cons, hit]
                                omega
                            · refine ⟨?_, ?_, fun hb => ihr3 (ihc3 (by omega))⟩
                              · omega
                              · simp [List.countP_append, List.countP_cons, hif]
                                omega
                      | aborted => simp only [hwr] at h; cases h
                      | failed m => simp only [hwr] at h; cases h
                      | fuelOut => simp only [hwr] at h; cases h
                  | aborted => simp only [hwc] at h; cases h
                  | failed m => simp only [hwc] at h; cases h
                  | fuelOut => simp only [hwc] at h; cases h

/-- Dedup invariant of the traversal: the processed set only grows, every
accepted key is a fresh insertion of the walk, and no key is accepted
twice. -/
theorem walk_dedup (w : World) (ctx : ChunkContentContext) :
    ∀ (fuel : Nat) (st : VisitState) (edges : List CEdge) (st' : VisitState)
      (out : List CEdge),
      walk w ctx fuel st edges = .done st' out →
      st.processedAssets ⊆ st'.processedAssets ∧
      (∀ k ∈ out.filterMap Prod.fst,
        (k.2, k.1) ∈ st'.processedAssets ∧ (k.2, k.1) ∉ st.processedAssets) ∧
      (out.filterMap Prod.fst).Nodup := by
  intro fuel
  induction fuel with
  | zero =>
      intro st edges st' out h
      simp only [walk] at h
      cases h
  | succ fuel ih =>
      intro st edges st' out h
      cases edges with
      | nil =>
          simp only [walk] at h
          cases h
          simp [List.Subset.refl]
      | cons e rest =>
          simp only [walk] at h
          cases hv : visitStep ctx.split st e with
          | abort => simp only [hv] at h; cases h
          | skip st1 =>
              simp only [hv] at h
              have hst : st1 = st := visitStep_skip_eq hv
              subst hst
              exact ih _ rest st' out h
          | cont st1 =>
              simp only [hv] at h
              cases hne : nodeEdges w ctx e.2 with
              | error m => simp only [hne] at h; cases h
              | ok children =>
                  simp only [hne] at h
                  cases hwc : walk w ctx fuel st1 children with
                  | done st2 outC =>
                      simp only [hwc] at h
                      cases hwr : walk w ctx fuel st2 rest with
                      | done st3 outR =>
                          simp only [hwr] at h
                          cases h
                          obtain ⟨ihc1, ihc2, ihc3⟩ := ih st1 children st2 outC hwc
                          obtain ⟨ihr1, ihr2, ihr3⟩ := ih st2 rest _ outR hwr
                          rcases visitStep_cont_spec hv with
                            ⟨hk, rfl⟩ | ⟨a, ct, hk, hfresh, hins, _⟩
                          · obtain ⟨e1, e2⟩ := e
                            simp only at hk
                            subst hk
                            have hout : ((none, e2) :: outR).filterMap
                                (Prod.fst (α := Option (Nat × ChunkingType))
                                  (β := GraphNode)) = outR.filterMap Prod.fst := by
                              simp [List.filterMap_cons]
                            refine ⟨List.Subset.trans ihc1 ihr1, ?_, ?_⟩
                            · intro k hkm
                              rw [List.filterMap_append, hout] at hkm
                              rcases List.mem_append.1 hkm with h1 | h1
                              · exact ⟨ihr1 (ihc2 k h1).1, (ihc2 k h1).2⟩
                              · exact ⟨(ihr2 k h1).1,
                                  fun hc => (ihr2 k h1).2 (ihc1 hc)⟩
                            · rw [List.filterMap_append, hout, List.nodup_append]
                              refine ⟨ihc3, ihr3, ?_⟩
                              intro x hxC hxR
                              exact (ihr2 x hxR).2 (ihc2 x hxC).1
                          · obtain ⟨e1, e2⟩ := e
                            simp only at hk
                            subst hk
                            have hsub1 : st.processedAssets ⊆ st1.processedAssets := by
                              rw [hins]
                              exact List.subset_cons_self _ _
                            have hmem1 : (ct, a) ∈ st1.processedAssets := by
                              rw [hins]
                              exact List.mem_cons_self _ _
                            have hout : ((some (a, ct), e2) :: outR).filterMap
                                (Prod.fst (α := Option (Nat × ChunkingType))
                                  (β := GraphNode)) =
                                (a, ct) :: outR.filterMap Prod.fst := by
                              simp [List.filterMap_cons]
                            refine ⟨List.Subset.trans hsub1
                              (List.Subset.trans ihc1 ihr1), ?_, ?_⟩
                            · intro k hkm
                              rw [List.filterMap_append, hout] at hkm
                              rcases List.mem_append.1 hkm with h1 | h1
                              · refine ⟨ihr1 (ihc2 k h1).1,
                                  fun hc => (ihc2 k h1).2 (hsub1 hc)⟩
                              · rcases List.mem_cons.1 h1 with rfl | h2
                                · exact ⟨ihr1 (ihc1 hmem1), hfresh⟩
                                · exact ⟨(ihr2 k h2).1,
                                    fun hc => (ihr2 k h2).2 (ihc1 (hsub1 hc))⟩
                            · rw [List.filterMap_append, hout, List.nodup_append,
                                List.nodup_cons]
                              refine ⟨ihc3, ⟨?_, ihr3⟩, ?_⟩
                              · intro hmemR
                                exact (ihr2 _ hmemR).2 (ihc1 hmem1)
                              · intro x hxC hxR
                                rcases List.mem_cons.1 hxR with rfl | h2
                                · exact (ihc2 _ hxC).2 hmem1
                                · exact (ihr2 x h2).2 (ihc2 x hxC).1
                      | aborted => simp only [hwr] at h; cases h
                      | failed m => simp only [hwr] at h; cases h
                      | fuelOut => simp only [hwr] at h; cases h
                  | aborted => simp only [hwc] at h; cases h
                  | failed m => simp only [hwc] at h; cases h
                  | fuelOut => simp only [hwc] at h; cases h

/-! ## Branch facts about the classifier -/

/-- An available asset is always absorbed, whatever the chunking type. -/
theorem classifyAsset_avail (w : World) (ctx : ChunkContentContext)
    (ct : ChunkingType) (a : Nat)
    (h : availContains ctx.availabilityInfo a = true) :
    classifyAsset w ctx ct a = .push (some (a, ct)) (.availableAsset a) := by
  unfold classifyAsset
  rw [if_pos h]

/-- A pushed `Chunk` node is built with the fresh root availability for
`IsolatedParallel` and with the caller's availability for `Parallel`. -/
theorem classifyAsset_push_chunk (w : World) (ctx : ChunkContentContext)
    (ct : ChunkingType) (a : Nat) (k : Option (Nat × ChunkingType))
    (c : ChunkV) (h : classifyAsset w ctx ct a = .push k (.chunk c)) :
    (ct = .isolatedParallel → c = ⟨a, .root a⟩) ∧
    (ct = .parallel → c = ⟨a, ctx.availabilityInfo⟩) := by
  unfold classifyAsset at h
  split at h
  · injection h with _ h2; cases h2
  · split at h
    · cases h
    · cases ct <;> dsimp only at h
      case placed =>
          split at h
          · injection h with _ h2; cases h2
          · cases h
      case parallel =>
          injection h with _ h2
          injection h2 with h3
          exact ⟨(fun hc => by cases hc), (fun _ => h3.symm)⟩
      case isolatedParallel =>
          injection h with _ h2
          injection h2 with h3
          exact ⟨(fun _ => h3.symm), (fun hc => by cases hc)⟩
      case placedOrParallel =>
          split at h
          · injection h with _ h2; cases h2
          · exact ⟨(fun hc => by cases hc), (fun hc => by cases hc)⟩
      case separate => injection h with _ h2; cases h2
      case separateAsync =>
          split at h
          · injection h with _ h2; cases h2
          · cases h

/-- With `split == true` a `PlacedOrParallel` asset is either absorbed as
available or degraded to a `Chunk` with the caller's availability — never a
`ChunkItem`. -/
theorem classifyAsset_pop_split_forms (w : World) (ctx : ChunkContentContext)
    (a : Nat) (k : Option (Nat × ChunkingType)) (n : GraphNode)
    (hsplit : ctx.split = true)
    (h : classifyAsset w ctx .placedOrParallel a = .push k n) :
    n = .availableAsset a ∨ n = .chunk ⟨a, ctx.availabilityInfo⟩ := by
  unfold classifyAsset at h
  split at h
  · injection h with _ h2; exact Or.inl h2.symm
  · split at h
    · cases h
    · rw [hsplit] at h
      simp only [Bool.not_true, Bool.false_and, Bool.false_eq_true,
        if_false] at h
      injection h with _ h2
      exact Or.inr h2.symm

/-- Every `ChunkItem` edge produced by `ChunkContentVisit::edges` carries a
dedup key. -/
theorem nodeEdges_item_keyed (w : World) (ctx : ChunkContentContext) :
    ∀ n l, nodeEdges w ctx n = .ok l →
      ∀ e ∈ l, isItemEdge e = true → e.1.isSome = true := by
  refine nodeEdges_ok_forall w ctx
    (fun e => isItemEdge e = true → e.1.isSome = true) ?_ ?_
  · intro ct a k n h _
    rw [classifyAsset_push_key w ctx ct a k n h]
    rfl
  · intro r h
    simp [isItemEdge] at h

/-! ## Root edges and assembly -/

/-- Every successfully built root edge is a keyed `ChunkItem` edge for one of
the entries. -/
theorem buildRootEdges_forall (w : World) :
    ∀ (l : List Nat) (es : List CEdge), buildRootEdges w l = some es →
      ∀ e ∈ es, ∃ a, a ∈ l ∧
        e = (some (a, .placed), .chunkItem ⟨a, false, none⟩) := by
  intro l
  induction l with
  | nil =>
      intro es h e he
      simp only [buildRootEdges] at h
      cases h
      cases he
  | cons a rest ih =>
      intro es h e he
      simp only [buildRootEdges] at h
      split at h
      · rw [Option.map_eq_some'] at h
        obtain ⟨l', hl', rfl⟩ := h
        rcases List.mem_cons.1 he with rfl | h2
        · exact ⟨a, List.mem_cons_self _ _, rfl⟩
        · obtain ⟨b, hb, he2⟩ := ih l' hl' e h2
          exact ⟨b, List.mem_cons_of_mem _ hb, he2⟩
      · cases h

/-- The root edges fail to build (the `unwrap` panics) exactly when the
factory rejects one of the entries. -/
theorem buildRootEdges_none_iff (w : World) :
    ∀ l : List Nat, buildRootEdges w l = none ↔
      ∃ a ∈ l, w.fromAssetOk a = false := by
  intro l
  induction l with
  | nil => simp [buildRootEdges]
  | cons a rest ih =>
      constructor
      · intro h
        simp only [buildRootEdges] at h
        split at h
        · rw [Option.map_eq_none'] at h
          obtain ⟨b, hb, hfb⟩ := (ih).1 h
          exact ⟨b, List.mem_cons_of_mem _ hb, hfb⟩
        · rename_i hcond
          refine ⟨a, List.mem_cons_self _ _, ?_⟩
          cases hfa : w.fromAssetOk a with
          | false => rfl
          | true => exact absurd hfa hcond
      · rintro ⟨b, hb, hfb⟩
        simp only [buildRootEdges]
        rcases List.mem_cons.1 hb with rfl | hb2
        · rw [hfb]
          simp
        · split
          · rw [Option.map_eq_none']
            exact (ih).2 ⟨b, hb2, hfb⟩
          · rfl

/-- The chunk-items bucket of the assembled result counts exactly the
accepted `ChunkItem` edges. -/
theorem assemble_chunkItems_length (out : List CEdge) (info : AvailabilityInfo) :
    (assemble (out.map Prod.snd) info).chunkItems.length =
      out.countP isItemEdge := by
  induction out with
  | nil => rfl
  | cons e rest ih =>
      obtain ⟨k, n⟩ := e
      cases n <;>
        simp [assemble, isItemEdge, List.countP_cons, List.filterMap_cons] at ih ⊢ <;>
        omega

/-- Membership in the chunk-items bucket. -/
theorem mem_assemble_chunkItems (nodes : List GraphNode)
    (info : AvailabilityInfo) (i : ChunkItemV) :
    i ∈ (assemble nodes info).chunkItems ↔ GraphNode.chunkItem i ∈ nodes := by
  simp only [assemble, List.mem_filterMap]
  constructor
  · rintro ⟨n, hn, he⟩
    cases n <;> simp_all
  · intro h
    exact ⟨_, h, rfl⟩

/-- Membership in the parallel-chunks bucket. -/
theorem mem_assemble_chunks (nodes : List GraphNode)
    (info : AvailabilityInfo) (c : ChunkV) :
    c ∈ (assemble nodes info).chunks ↔ GraphNode.chunk c ∈ nodes := by
  simp only [assemble, List.mem_filterMap]
  constructor
  · rintro ⟨n, hn, he⟩
    cases n <;> simp_all
  · intro h
    exact ⟨_, h, rfl⟩

/-- Membership in the async-chunk-groups bucket. -/
theorem mem_assemble_groups (nodes : List GraphNode)
    (info : AvailabilityInfo) (g : GroupV) :
    g ∈ (assemble nodes info).asyncChunkGroups ↔
      GraphNode.asyncChunkGroup g ∈ nodes := by
  simp only [assemble, List.mem_filterMap]
  constructor
  · rintro ⟨n, hn, he⟩
    cases n <;> simp_all
  · intro h
    exact ⟨_, h, rfl⟩

/-! ## Decimal rendering of `ModuleId::Number` -/

/-- A digit character is a digit. -/
theorem digitChar_isDigit {d : Nat} (h : d < 10) :
    (Nat.digitChar d).isDigit = true := by
  interval_cases d <;> decide

/-- Numeric value of a digit character. -/
theorem digitChar_toNat {d : Nat} (h : d < 10) :
    (Nat.digitChar d).toNat = 48 + d := by
  interval_cases d <;> decide

/-- Every character of the fueled decimal rendering is a digit. -/
theorem natDecCharsAux_digits : ∀ fuel n : Nat, n < fuel →
    ∀ c ∈ natDecCharsAux fuel n, c.isDigit = true := by
  intro fuel
  induction fuel with
  | zero => intro n hn; omega
  | succ fuel ih =>
      intro n hn c hc
      unfold natDecCharsAux at hc
      split at hc
      · rename_i hlt
        rcases List.mem_singleton.1 hc with rfl
        exact digitChar_isDigit hlt
      · rename_i hge
        rcases List.mem_append.1 hc with h1 | h1
        · refine ih (n / 10) ?_ c h1
          have hlt : n / 10 < n := Nat.div_lt_self (by omega) (by decide)
          omega
        · rcases List.mem_singleton.1 h1 with rfl
          exact digitChar_isDigit (Nat.mod_lt _ (by omega))

/-- Every character of the decimal rendering is a digit. -/
theorem natDecChars_digits (n : Nat) : ∀ c ∈ natDecChars n, c.isDigit = true :=
  natDecCharsAux_digits (n + 1) n (Nat.lt_succ_self n)

/-- The fueled decimal rendering is never empty when the fuel suffices. -/
theorem natDecCharsAux_ne_nil (fuel n : Nat) (h : n < fuel) :
    natDecCharsAux fuel n ≠ [] := by
  cases fuel with
  | zero => omega
  | succ fuel =>
      unfold natDecCharsAux
      split
      · simp
      · simp

/-- The decimal rendering is never empty. -/
theorem natDecChars_ne_nil (n : Nat) : natDecChars n ≠ [] :=
  natDecCharsAux_ne_nil (n + 1) n (Nat.lt_succ_self n)

/-- Folding the digit-accumulation step over the fueled decimal rendering
recovers the number. -/
theorem natDecCharsAux_foldl : ∀ fuel n acc : Nat, n < fuel →
    (natDecCharsAux fuel n).foldl (fun a c => a * 10 + (c.toNat - 48)) acc =
      acc * 10 ^ (natDecCharsAux fuel n).length + n := by
  intro fuel
  induction fuel with
  | zero => intro n acc hn; omega
  | succ fuel ih =>
      intro n acc hn
      unfold natDecCharsAux
      split
      · rename_i hlt
        simp only [List.foldl_cons, List.foldl_nil, List.length_cons,
          List.length_nil, pow_one, digitChar_toNat hlt]
        omega
      · rename_i hge
        have hdiv : n / 10 < fuel := by
          have hlt : n / 10 < n := Nat.div_lt_self (by omega) (by decide)
          omega
        rw [List.foldl_append]
        rw [ih (n / 10) acc hdiv]
        simp only [List.foldl_cons, List.foldl_nil, List.length_append,
          List.length_cons, List.length_nil,
          digitChar_toNat (Nat.mod_lt n (by omega))]
        rw [pow_succ]
        have hdm := Nat.div_add_mod n 10
        ring_nf
        omega

/-- Folding the digit-accumulation step over the decimal rendering recovers
the number. -/
theorem natDecChars_foldl (n acc : Nat) :
    (natDecChars n).foldl (fun a c => a * 10 + (c.toNat - 48)) acc =
      acc * 10 ^ (natDecChars n).length + n :=
  natDecCharsAux_foldl (n + 1) n acc (Nat.lt_succ_self n)

/-- Parsing the digit list of a canonical decimal rendering of a `u32`
recovers the number. -/
theorem u32FromDigits_natDecChars {n : Nat} (h : n < 2 ^ 32) :
    u32FromDigits (natDecChars n) = some n := by
  unfold u32FromDigits
  have hfold := natDecChars_foldl n 0
  rw [Nat.zero_mul, Nat.zero_add] at hfold
  cases hl : natDecChars n with
  | nil => exact absurd hl (natDecChars_ne_nil n)
  | cons c cs =>
      rw [hl] at hfold
      simp only [List.isEmpty_cons, Bool.false_eq_true, if_false]
      rw [if_pos, hfold, if_pos h]
      rw [List.all_eq_true]
      intro x hx
      exact natDecChars_digits n x (by rw [hl]; exact hx)

/-- Parsing the canonical decimal string of a `u32` recovers the number. -/
theorem u32FromStr_canonical {n : Nat} (h : n < 2 ^ 32) :
    u32FromStr ⟨natDecChars n⟩ = some n := by
  unfold u32FromStr
  have hd : (String.mk (natDecChars n)).data = natDecChars n := rfl
  rw [hd]
  have hne : (natDecChars n).head? ≠ some '+' := by
    cases hl : natDecChars n with
    | nil => simp
    | cons c cs =>
        have hcd := natDecChars_digits n c (by rw [hl]; exact List.mem_cons_self _ _)
        simp only [List.head?_cons]
        intro hcc
        injection hcc with hc
        rw [hc] at hcd
        exact absurd hcd (by decide)
  rw [if_neg hne]
  exact u32FromDigits_natDecChars h

/-! ## Claims -/

/-- **C1** (amended).  `chunk_content_split` never surfaces the
"no result" sentinel: with `split == true` the size check is disabled so the
traversal cannot abort, and a `PlacedOrParallel` edge never yields a
`ChunkItem` node — the asset is either absorbed as available or degraded to a
parallel `Chunk` built with the caller's availability info.  Moreover,
whenever the root edges build successfully (the chunk-item factory accepts
every entry), the entry point does not panic.  The claim's unconditional
"never panics" is refuted by
`chunk_content_split_panics_on_rejected_entry`. -/
theorem chunk_content_split_totality_amended :
    (∀ (w : World) (fuel entry : Nat) (adds : List Nat)
      (info : AvailabilityInfo),
      (chunkContentInternal w fuel entry adds info true).isNoResult = false) ∧
    (∀ (w : World) (ctx : ChunkContentContext) (r : Nat) (l : List CEdge)
      (a : Nat) (n : GraphNode), ctx.split = true →
      referenceToGraphNodes w ctx r = .ok l →
      (some (a, .placedOrParallel), n) ∈ l →
      n = .availableAsset a ∨ n = .chunk ⟨a, ctx.availabilityInfo⟩) ∧
    (∀ (w : World) (fuel entry : Nat) (adds : List Nat)
      (info : AvailabilityInfo) (es : List CEdge),
      buildRootEdges w (entry :: adds) = some es →
      chunkContentSplit w fuel entry adds info ≠ .panic) := by
  refine ⟨?_, ?_, ?_⟩
  · intro w fuel entry adds info
    unfold chunkContentInternal
    cases hb : buildRootEdges w (entry :: adds) with
    | none => rfl
    | some roots =>
        cases hw : walk w ⟨entry, info, true⟩ fuel ⟨0, []⟩ roots with
        | done st out => simp only [hw]; rfl
        | aborted =>
            exact absurd hw
              (walk_true_no_abort w ⟨entry, info, true⟩ rfl fuel _ _)
        | failed m => simp only [hw]; rfl
        | fuelOut => simp only [hw]; rfl
  · intro w ctx r l a n hsplit hok hmem
    refine referenceToGraphNodes_ok_forall w ctx
      (fun e => ∀ a' n', e = (some (a', .placedOrParallel), n') →
        n' = .availableAsset a' ∨ n' = .chunk ⟨a', ctx.availabilityInfo⟩)
      ?_ ?_ r l hok _ hmem a n rfl
    · rintro ct1 a1 k nn h a2 n2 heq
      have hk := classifyAsset_push_key w ctx ct1 a1 k nn h
      subst hk
      injection heq with h1 h2
      injection h1 with h3
      injection h3 with h4 h5
      subst h4
      subst h5
      subst h2
      exact classifyAsset_pop_split_forms w ctx a1 _ _ hsplit h
    · rintro r' a2 n2 heq
      injection heq with h1 _
      cases h1
  · intro w fuel entry adds info es hb
    unfold chunkContentSplit chunkContentInternal
    rw [hb]
    cases hw : walk w ⟨entry, info, true⟩ fuel ⟨0, []⟩ es with
    | done st out => simp only [hw]; simp
    | aborted =>
        exact absurd hw (walk_true_no_abort w ⟨entry, info, true⟩ rfl fuel _ _)
    | failed m => simp only [hw]; simp
    | fuelOut => simp only [hw]; simp

/-- **C1 counterexample.**  When the chunk-item factory rejects the entry
asset, `chunk_content_split` panics (the `unwrap` in the root-edge
construction), refuting "for every input … it never panics". -/
theorem chunk_content_split_panics_on_rejected_entry :
    chunkContentSplit rejectEntryWorld 1 0 [] (.root 0) = .panic := rfl

/-- Witness for `chunk_content_split_totality_amended` at concrete inputs. -/
theorem chunk_content_split_totality_amended_witness :
    (chunkContentInternal baseWorld 2 0 [] (.root 0) true).isNoResult = false ∧
    (GraphNode.chunk ⟨1, .root 9⟩ = .availableAsset 1 ∨
      GraphNode.chunk ⟨1, .root 9⟩ = .chunk ⟨1, .root 9⟩) ∧
    chunkContentSplit baseWorld 2 0 [] (.root 0) ≠ .panic :=
  ⟨chunk_content_split_totality_amended.1 baseWorld 2 0 [] (.root 0),
   chunk_content_split_totality_amended.2.1 popWorld ⟨0, .root 9, true⟩ 0
     [(some (1, .placedOrParallel), .chunk ⟨1, .root 9⟩)] 1
     (.chunk ⟨1, .root 9⟩) rfl rfl (by decide),
   chunk_content_split_totality_amended.2.2 baseWorld 2 0 [] (.root 0)
     [(some (0, .placed), .chunkItem ⟨0, false, none⟩)] rfl⟩

/-- **C2.**  Size bound and restart signal: with `split == false`, accepting
a fresh `ChunkItem` edge that brings the running count up to
`MAX_CHUNK_ITEMS_COUNT` makes the visitor abort; consequently whenever
`chunk_content` completes with `Some(result)`, `result.chunk_items` has
fewer than 5000 elements. -/
theorem chunk_content_size_bound :
    (∀ (st : VisitState) (a : Nat) (ct : ChunkingType) (i : ChunkItemV),
      (ct, a) ∉ st.processedAssets →
      MAX_CHUNK_ITEMS_COUNT ≤ st.chunkItemsCount + 1 →
      visitStep false st (some (a, ct), .chunkItem i) = .abort) ∧
    (∀ (w : World) (fuel entry : Nat) (adds : List Nat)
      (info : AvailabilityInfo) (r : ChunkContentResult),
      chunkContent w fuel entry adds info = .ok (some r) →
      r.chunkItems.length < MAX_CHUNK_ITEMS_COUNT) := by
  constructor
  · intro st a ct i hfresh hge
    simp [visitStep, hfresh, hge]
  · intro w fuel entry adds info r h
    unfold chunkContent chunkContentInternal at h
    cases hb : buildRootEdges w (entry :: adds) with
    | none => rw [hb] at h; cases h
    | some roots =>
        rw [hb] at h
        cases hw : walk w ⟨entry, info, false⟩ fuel ⟨0, []⟩ roots with
        | done st out =>
            simp only [hw] at h
            have hroot : ∀ e ∈ roots, isItemEdge e = true → e.1.isSome = true := by
              intro e he _
              obtain ⟨a, -, rfl⟩ := buildRootEdges_forall w _ roots hb e he
              rfl
            obtain ⟨-, c2, c3⟩ := walk_count w ⟨entry, info, false⟩ rfl
              (nodeEdges_item_keyed w _) fuel ⟨0, []⟩ roots st out hroot hw
            have hr : r = assemble (out.map Prod.snd) info := by
              injection h with h1
              injection h1 with h2
              exact h2.symm
            subst hr
            rw [assemble_chunkItems_length]
            have c2' : out.countP isItemEdge + 0 ≤ st.chunkItemsCount := c2
            have c3' : 0 < MAX_CHUNK_ITEMS_COUNT →
                st.chunkItemsCount < MAX_CHUNK_ITEMS_COUNT := c3
            have hM : (0 : Nat) < MAX_CHUNK_ITEMS_COUNT := by decide
            have := c3' hM
            omega
        | aborted => simp only [hw] at h; cases h
        | failed m => simp only [hw] at h; cases h
        | fuelOut => simp only [hw] at h; cases h

/-- Witness for `chunk_content_size_bound` at concrete inputs. -/
theorem chunk_content_size_bound_witness :
    visitStep false ⟨4999, []⟩ (some (0, .placed), .chunkItem ⟨0, false, none⟩) =
      .abort ∧
    ([⟨1, false, none⟩, ⟨0, false, none⟩] : List ChunkItemV).length <
      MAX_CHUNK_ITEMS_COUNT :=
  ⟨chunk_content_size_bound.1 ⟨4999, []⟩ 0 .placed ⟨0, false, none⟩
      (by decide) (by decide),
   chunk_content_size_bound.2 exampleWorld 10 0 [] (.root 0)
      ⟨[⟨1, false, none⟩, ⟨0, false, none⟩], [⟨2, .root 0⟩], [⟨3, .root 0⟩],
        [], .root 0⟩ rfl⟩

/-- **C3.**  Deduplication: within one walk the keys of the accepted edges
are pairwise distinct (a second edge with an already-processed key is skipped
with the state unchanged, hence not expanded), and edges without a key are
never deduplicated (they always continue, leaving the state unchanged). -/
theorem chunk_content_dedup :
    (∀ (w : World) (ctx : ChunkContentContext) (fuel : Nat)
      (edges out : List CEdge) (st' : VisitState),
      walk w ctx fuel ⟨0, []⟩ edges = .done st' out →
      (out.filterMap Prod.fst).Nodup) ∧
    (∀ (split : Bool) (st : VisitState) (a : Nat) (ct : ChunkingType)
      (n : GraphNode), (ct, a) ∈ st.processedAssets →
      visitStep split st (some (a, ct), n) = .skip st) ∧
    (∀ (split : Bool) (st : VisitState) (n : GraphNode),
      visitStep split st (none, n) = .cont st) := by
  refine ⟨?_, visitStep_mem_skip, visitStep_none⟩
  intro w ctx fuel edges out st' h
  exact (walk_dedup w ctx fuel ⟨0, []⟩ edges st' out h).2.2

/-- Witness for `chunk_content_dedup` at concrete inputs. -/
theorem chunk_content_dedup_witness :
    ([(some (1, ChunkingType.placed),
        GraphNode.chunkItem ⟨1, false, none⟩),
      (some (2, ChunkingType.parallel), GraphNode.chunk ⟨2, .root 0⟩),
      (some (3, ChunkingType.separate),
        GraphNode.asyncChunkGroup ⟨3, .root 0⟩),
      (some (0, ChunkingType.placed),
        GraphNode.chunkItem ⟨0, false, none⟩)].filterMap
        (Prod.fst (α := Option (Nat × ChunkingType)) (β := GraphNode))).Nodup ∧
    visitStep false ⟨1, [(.placed, 0)]⟩ (some (0, .placed),
      .chunkItem ⟨0, false, none⟩) = .skip ⟨1, [(.placed, 0)]⟩ ∧
    visitStep false ⟨0, []⟩ (none, .externalAssetReference 7) = .cont ⟨0, []⟩ :=
  ⟨chunk_content_dedup.1 exampleWorld ⟨0, .root 0, false⟩ 10
      [(some (0, .placed), .chunkItem ⟨0, false, none⟩)] _
      ⟨2, [(.separate, 3), (.parallel, 2), (.placed, 1), (.placed, 0)]⟩ rfl,
   chunk_content_dedup.2.1 false ⟨1, [(.placed, 0)]⟩ 0 .placed
      (.chunkItem ⟨0, false, none⟩) (by decide),
   chunk_content_dedup.2.2 false ⟨0, []⟩ (.externalAssetReference 7)⟩

/-- An asset pushed by the classifier carries the pushed node's asset. -/
theorem classifyAsset_push_mentions (w : World) (ctx : ChunkContentContext)
    (ct : ChunkingType) (a : Nat) (k : Option (Nat × ChunkingType))
    (n : GraphNode) (A : Nat) (h : classifyAsset w ctx ct a = .push k n)
    (hm : mentionsAsset A n = true) : a = A := by
  unfold classifyAsset at h
  split at h
  · injection h with _ h2
    subst h2
    cases hm
  · split at h
    · cases h
    · cases ct <;> dsimp only at h
      case placed =>
          split at h
          · injection h with _ h2
            subst h2
            simpa [mentionsAsset] using hm
          · cases h
      case parallel =>
          injection h with _ h2
          subst h2
          simpa [mentionsAsset] using hm
      case isolatedParallel =>
          injection h with _ h2
          subst h2
          simpa [mentionsAsset] using hm
      case placedOrParallel =>
          split at h <;>
            (injection h with _ h2; subst h2; simpa [mentionsAsset] using hm)
      case separate =>
          injection h with _ h2
          subst h2
          simpa [mentionsAsset] using hm
      case separateAsync =>
          split at h
          · injection h with _ h2
            subst h2
            simpa [mentionsAsset] using hm
          · cases h

/-- **C4** (amended).  Availability suppression: an asset of the
available-assets set that is not one of the walk's entries never shows up in
the `chunk_items`, `chunks` or `async_chunk_groups` buckets — the classifier
turns it into an `AvailableAsset` leaf and the assembler discards those.
The restriction to non-entries is forced by
`available_entry_emitted_as_chunk_item`: the root edges bypass the
classifier's availability check. -/
theorem availability_suppression_amended :
    ∀ (w : World) (fuel entry : Nat) (adds : List Nat)
      (info : AvailabilityInfo) (split : Bool) (avail : List Nat) (A : Nat)
      (r : ChunkContentResult),
      info.availableAssets? = some avail → A ∈ avail →
      A ≠ entry → A ∉ adds →
      chunkContentInternal w fuel entry adds info split = .ok (some r) →
      (∀ i ∈ r.chunkItems, i.asset ≠ A) ∧
      (∀ c ∈ r.chunks, c.asset ≠ A) ∧
      (∀ g ∈ r.asyncChunkGroups, g.asset ≠ A) := by
  intro w fuel entry adds info split avail A r hinfo hA hAe hAa h
  have havail : availContains info A = true := by
    unfold availContains
    rw [hinfo]
    simpa using hA
  unfold chunkContentInternal at h
  cases hb : buildRootEdges w (entry :: adds) with
  | none => rw [hb] at h; cases h
  | some roots =>
      rw [hb] at h
      cases hw : walk w ⟨entry, info, split⟩ fuel ⟨0, []⟩ roots with
      | done st out =>
          simp only [hw] at h
          have hr : r = assemble (out.map Prod.snd) info := by
            injection h with h1
            injection h1 with h2
            exact h2.symm
          subst hr
          have hQ : ∀ e ∈ out, mentionsAsset A e.2 = false := by
            refine walk_ok_forall w ⟨entry, info, split⟩
              (fun e => mentionsAsset A e.2 = false) ?_ fuel ⟨0, []⟩ roots
              st out ?_ hw
            · refine nodeEdges_ok_forall w _ _ ?_ ?_
              · intro ct a k n hc
                cases hm : mentionsAsset A n with
                | false => rfl
                | true =>
                    have haA := classifyAsset_push_mentions w _ ct a k n A hc hm
                    subst haA
                    rw [classifyAsset_avail w _ ct a havail] at hc
                    injection hc with _ h2
                    subst h2
                    cases hm
              · intro r'
                rfl
            · intro e he
              obtain ⟨a, ha, rfl⟩ := buildRootEdges_forall w _ roots hb e he
              have haA : a ≠ A := by
                rcases List.mem_cons.1 ha with rfl | h2
                · exact fun hc => hAe hc.symm
                · exact fun hc => hAa (hc ▸ h2)
              simp [mentionsAsset, haA]
          refine ⟨?_, ?_, ?_⟩
          · intro i hi
            obtain ⟨n, hn, he⟩ :=
              List.mem_map.1 ((mem_assemble_chunkItems _ info i).1 hi)
            obtain hq := hQ n hn
            rw [he] at hq
            intro hc
            rw [mentionsAsset, hc] at hq
            simp at hq
          · intro c hc
            obtain ⟨n, hn, he⟩ :=
              List.mem_map.1 ((mem_assemble_chunks _ info c).1 hc)
            obtain hq := hQ n hn
            rw [he] at hq
            intro hcc
            rw [mentionsAsset, hcc] at hq
            simp at hq
          · intro g hg
            obtain ⟨n, hn, he⟩ :=
              List.mem_map.1 ((mem_assemble_groups _ info g).1 hg)
            obtain hq := hQ n hn
            rw [he] at hq
            intro hcc
            rw [mentionsAsset, hcc] at hq
            simp at hq
      | aborted => simp only [hw] at h; cases h
      | failed m => simp only [hw] at h; cases h
      | fuelOut => simp only [hw] at h; cases h

/-- **C4 counterexample.**  An entry asset contained in the available-assets
set is still emitted as a `ChunkItem` (the root edges bypass the
classifier), refuting the claim's "for every asset A in
available_assets … A never appears in chunk_items". -/
theorem available_entry_emitted_as_chunk_item :
    chunkContent baseWorld 2 0 [] (.complete [0]) =
      .ok (some ⟨[⟨0, false, none⟩], [], [], [], .complete [0]⟩) ∧
    (0 : Nat) ∈ [0] ∧ (⟨0, false, none⟩ : ChunkItemV).asset = 0 :=
  ⟨rfl, by decide, rfl⟩

/-- Witness for `availability_suppression_amended` at concrete inputs. -/
theorem availability_suppression_amended_witness :
    (⟨0, false, none⟩ : ChunkItemV).asset ≠ 5 :=
  (availability_suppression_amended baseWorld 2 0 [] (.complete [5]) false
      [5] 5 ⟨[⟨0, false, none⟩], [], [], [], .complete [5]⟩ rfl (by decide)
      (by decide) (by decide) rfl).1 ⟨0, false, none⟩ (by decide)

/-- **C5.**  IsolatedParallel freshness vs Parallel inheritance: a `Chunk`
node emitted under an `IsolatedParallel` key is built with the fresh
availability root anchored at the referenced asset, while a `Chunk` node
emitted under a `Parallel` key is built with the caller's availability info
unchanged. -/
theorem isolated_parallel_freshness :
    ∀ (w : World) (ctx : ChunkContentContext) (r : Nat) (l : List CEdge)
      (a : Nat) (ct : ChunkingType) (c : ChunkV),
      referenceToGraphNodes w ctx r = .ok l →
      (some (a, ct), GraphNode.chunk c) ∈ l →
      (ct = .isolatedParallel → c = ⟨a, .root a⟩) ∧
      (ct = .parallel → c = ⟨a, ctx.availabilityInfo⟩) := by
  intro w ctx r l a ct c hok hmem
  refine referenceToGraphNodes_ok_forall w ctx
    (fun e => ∀ a' ct' c', e = (some (a', ct'), .chunk c') →
      (ct' = .isolatedParallel → c' = ⟨a', .root a'⟩) ∧
      (ct' = .parallel → c' = ⟨a', ctx.availabilityInfo⟩))
    ?_ ?_ r l hok _ hmem a ct c rfl
  · rintro ct1 a1 k n h a2 ct2 c2 heq
    have hk := classifyAsset_push_key w ctx ct1 a1 k n h
    subst hk
    injection heq with h1 h2
    injection h1 with h3
    injection h3 with h4 h5
    subst h4
    subst h5
    subst h2
    exact classifyAsset_push_chunk w ctx ct1 a1 _ c2 h
  · rintro r' a2 ct2 c2 heq
    injection heq with h1 _
    cases h1

/-- Witness for `isolated_parallel_freshness` at concrete inputs. -/
theorem isolated_parallel_freshness_witness :
    (ChunkingType.isolatedParallel = ChunkingType.isolatedParallel →
      (⟨1, .root 1⟩ : ChunkV) = ⟨1, .root 1⟩) ∧
    (ChunkingType.isolatedParallel = ChunkingType.parallel →
      (⟨1, .root 1⟩ : ChunkV) = ⟨1, .root 9⟩) :=
  isolated_parallel_freshness parWorld ⟨0, .root 9, false⟩ 0
    [(some (1, .isolatedParallel), .chunk ⟨1, .root 1⟩)] 1 .isolatedParallel
    ⟨1, .root 1⟩ rfl (by decide)

/-- **C6** (amended).  Placed-but-not-placeable is fatal: for a `Placed`
reference to a chunkable, non-available asset, a positive factory answer
emits a `ChunkItem` keyed `(asset, Placed)`, and a negative answer fails with
the fatal message `placedErrMsg` — which reads "placed into the  same chunk"
(with a doubled space), not "placed in the same chunk" as the claim quotes
(see `placed_error_message_differs`).  The error propagates unrecovered
through `chunk_content`. -/
theorem placed_not_placeable_amended :
    (∀ (w : World) (ctx : ChunkContentContext) (r a : Nat),
      w.refChunkable r = true → w.refChunkingType r = some .placed →
      w.refPrimaryAssets r = [a] →
      availContains ctx.availabilityInfo a = false →
      w.assetChunkable a = true → w.fromAssetOk a = true →
      referenceToGraphNodes w ctx r =
        .ok [(some (a, .placed), .chunkItem ⟨a, false, none⟩)]) ∧
    (∀ (w : World) (ctx : ChunkContentContext) (r a : Nat),
      w.refChunkable r = true → w.refChunkingType r = some .placed →
      w.refPrimaryAssets r = [a] →
      availContains ctx.availabilityInfo a = false →
      w.assetChunkable a = true → w.fromAssetOk a = false →
      referenceToGraphNodes w ctx r = .error (placedErrMsg w a)) ∧
    (∀ (w : World) (fuel entry r0 a : Nat) (info : AvailabilityInfo),
      w.fromAssetOk entry = true →
      w.itemRefs ⟨entry, false, none⟩ = [r0] →
      w.refChunkable r0 = true → w.refChunkingType r0 = some .placed →
      w.refPrimaryAssets r0 = [a] →
      availContains info a = false → w.assetChunkable a = true →
      w.fromAssetOk a = false →
      chunkContent w (fuel + 1) entry [] info = .error (placedErrMsg w a)) := by
  have herr : ∀ (w : World) (ctx : ChunkContentContext) (r a : Nat),
      w.refChunkable r = true → w.refChunkingType r = some .placed →
      w.refPrimaryAssets r = [a] →
      availContains ctx.availabilityInfo a = false →
      w.assetChunkable a = true → w.fromAssetOk a = false →
      referenceToGraphNodes w ctx r = .error (placedErrMsg w a) := by
    intro w ctx r a hc hct hp hav hch hfa
    simp [referenceToGraphNodes, hc, hct, hp, classifyLoop, classifyAsset,
      hav, hch, hfa]
  refine ⟨?_, herr, ?_⟩
  · intro w ctx r a hc hct hp hav hch hfa
    simp [referenceToGraphNodes, hc, hct, hp, classifyLoop, classifyAsset,
      hav, hch, hfa]
  · intro w fuel entry r0 a info hfe hir hc hct hp hav hch hfa
    unfold chunkContent chunkContentInternal
    have hroot : buildRootEdges w (entry :: []) =
        some [(some (entry, .placed), .chunkItem ⟨entry, false, none⟩)] := by
      simp [buildRootEdges, hfe]
    rw [hroot]
    have hstep : visitStep false ⟨0, []⟩
        (some (entry, ChunkingType.placed), .chunkItem ⟨entry, false, none⟩) =
        .cont ⟨1, [(.placed, entry)]⟩ := by
      simp [visitStep, MAX_CHUNK_ITEMS_COUNT]
    have hnode : nodeEdges w ⟨entry, info, false⟩
        (.chunkItem ⟨entry, false, none⟩) = .error (placedErrMsg w a) := by
      simp only [nodeEdges, hir, refsToEdges]
      rw [herr w ⟨entry, info, false⟩ r0 a hc hct hp hav hch hfa]
    simp only [walk, hstep, hnode]

/-- **C6 counterexample.**  The classifier's fatal message reads "placed into
the  same chunk" (sic), not "placed in the same chunk" as the claim
quotes. -/
theorem placed_error_message_differs :
    referenceToGraphNodes placedFailWorld ⟨0, .root 0, false⟩ 0 =
      .error
        "Asset X was requested to be placed into the  same chunk, but this wasn't possible" ∧
    "Asset X was requested to be placed into the  same chunk, but this wasn't possible" ≠
      "Asset X was requested to be placed in the same chunk, but this wasn't possible" :=
  ⟨rfl, by decide⟩

/-- Witness for `placed_not_placeable_amended` at concrete inputs. -/
theorem placed_not_placeable_amended_witness :
    referenceToGraphNodes placedOkWorld ⟨0, .root 0, false⟩ 0 =
      .ok [(some (1, .placed), .chunkItem ⟨1, false, none⟩)] ∧
    referenceToGraphNodes placedFailWorld ⟨0, .root 0, false⟩ 0 =
      .error (placedErrMsg placedFailWorld 1) ∧
    chunkContent placedFailWorld 5 0 [] (.root 0) =
      .error (placedErrMsg placedFailWorld 1) :=
  ⟨placed_not_placeable_amended.1 placedOkWorld ⟨0, .root 0, false⟩ 0 1
      rfl rfl rfl rfl rfl rfl,
   placed_not_placeable_amended.2.1 placedFailWorld ⟨0, .root 0, false⟩ 0 1
      rfl rfl rfl rfl rfl rfl,
   placed_not_placeable_amended.2.2 placedFailWorld 4 0 0 1 (.root 0)
      rfl rfl rfl rfl rfl rfl rfl rfl⟩

/-- The per-asset loop early-returns the whole reference as external on the
first non-available, non-chunkable asset, discarding the accumulator. -/
theorem classifyLoop_nonchunkable (w : World) (ctx : ChunkContentContext)
    (r : Nat) (ct : ChunkingType) :
    ∀ (l1 : List Nat) (A : Nat) (l2 : List Nat) (acc : List CEdge),
      (∀ b ∈ l1, ∃ k n, classifyAsset w ctx ct b = .push k n) →
      availContains ctx.availabilityInfo A = false →
      w.assetChunkable A = false →
      classifyLoop w ctx r ct (l1 ++ A :: l2) acc =
        .ok [(none, .externalAssetReference r)] := by
  intro l1
  induction l1 with
  | nil =>
      intro A l2 acc _ hav hch
      have hA : classifyAsset w ctx ct A = .wholeExternal := by
        simp [classifyAsset, hav, hch]
      simp only [List.nil_append, classifyLoop, hA]
  | cons b rest ih =>
      intro A l2 acc hall hav hch
      obtain ⟨k, n, hb⟩ := hall b (List.mem_cons_self _ _)
      simp only [List.cons_append, classifyLoop, hb]
      exact ih A l2 _ (fun x hx => hall x (List.mem_cons_of_mem _ hx)) hav hch

/-- **C7** (amended).  Whole-reference External downgrade: when a resolved
primary asset is non-chunkable *and not short-circuited by the availability
check*, the whole reference collapses to the single edge
`(None, ExternalAssetReference)`, discarding every node already produced for
earlier assets of the same reference, with no error raised.  The availability
proviso is forced by `nonchunkable_available_asset_not_downgraded`: an
available non-chunkable asset is absorbed before the cast is attempted. -/
theorem external_downgrade_amended :
    ∀ (w : World) (ctx : ChunkContentContext) (r : Nat) (ct : ChunkingType)
      (l1 : List Nat) (A : Nat) (l2 : List Nat),
      w.refChunkable r = true → w.refChunkingType r = some ct →
      w.refPrimaryAssets r = l1 ++ A :: l2 →
      (∀ b ∈ l1, ∃ k n, classifyAsset w ctx ct b = .push k n) →
      availContains ctx.availabilityInfo A = false →
      w.assetChunkable A = false →
      referenceToGraphNodes w ctx r = .ok [(none, .externalAssetReference r)] := by
  intro w ctx r ct l1 A l2 hc hct hp hall hav hch
  simp only [referenceToGraphNodes, hc, Bool.not_true, Bool.false_eq_true,
    if_false, hct, hp]
  exact classifyLoop_nonchunkable w ctx r ct l1 A l2 [] hall hav hch

/-- **C7 counterexample.**  A non-chunkable asset that sits in the
available-assets set is absorbed as `AvailableAsset` instead of downgrading
the reference to External, refuting the claim's unconditional "if any of its
resolved primary assets fails the cast … exactly one
(None, ExternalAssetReference) node". -/
theorem nonchunkable_available_asset_not_downgraded :
    referenceToGraphNodes nonChunkableWorld ⟨0, .complete [5], false⟩ 0 =
      .ok [(some (5, .placed), .availableAsset 5)] ∧
    ([((some (5, ChunkingType.placed) : Option (Nat × ChunkingType)),
        GraphNode.availableAsset 5)] : List CEdge) ≠
      [(none, .externalAssetReference 0)] :=
  ⟨rfl, by decide⟩

/-- Witness for `external_downgrade_amended` at concrete inputs. -/
theorem external_downgrade_amended_witness :
    referenceToGraphNodes nonChunkableWorld ⟨0, .root 0, false⟩ 0 =
      .ok [(none, .externalAssetReference 0)] :=
  external_downgrade_amended nonChunkableWorld ⟨0, .root 0, false⟩ 0 .placed
    [] 5 [] rfl rfl rfl (by intro b hb; cases hb) rfl rfl

/-- **C8.**  Evaluation order: the chunk group produced by
`ChunkGroup::evaluated(ctx, main, others)` carries the evaluatable-assets
list `others ++ [main]` — `others`' order preserved and `main` appended
last. -/
theorem chunk_group_evaluated_order :
    ∀ (main : Nat) (others : EvaluatableAssets),
      (ChunkGroup.evaluated main others).evaluatableAssets = others ++ [main] ∧
      (ChunkGroup.evaluated main others).evaluatableAssets.getLast? =
        some main ∧
      (ChunkGroup.evaluated main others).evaluatableAssets.take
        others.length = others := by
  intro main others
  refine ⟨rfl, ?_, ?_⟩
  · show (others ++ [main]).getLast? = some main
    simp
  · show (others ++ [main]).take others.length = others
    exact List.take_left others [main]

/-- **C9** (amended).  ModuleId parse/display: a string accepted by Rust's
`u32::from_str` (an optional leading `+`, then decimal digits, value below
`2^32`) parses to `Number` of its value — in particular the canonical
decimal rendering of any `u32` round-trips through parse and display — and a
string rejected by `u32::from_str` parses to `String` and displays as
itself.  The claim's "every other string parses to `String(s)`" is refuted
by `module_id_parse_plus_string`: `"+7"` is not a decimal representation yet
parses as `Number 7`. -/
theorem module_id_parse_display_amended :
    (∀ n : Nat, n < 2 ^ 32 →
      ModuleId.parse (displayModuleId (.number n)) = .number n ∧
      displayModuleId (ModuleId.parse (displayModuleId (.number n))) =
        displayModuleId (.number n)) ∧
    (∀ (s : String) (n : Nat), u32FromStr s = some n →
      ModuleId.parse s = .number n) ∧
    (∀ s : String, u32FromStr s = none →
      ModuleId.parse s = .string s ∧
      displayModuleId (ModuleId.parse s) = s) := by
  refine ⟨?_, ?_, ?_⟩
  · intro n h
    have hp : ModuleId.parse (displayModuleId (.number n)) = .number n := by
      unfold ModuleId.parse displayModuleId
      rw [u32FromStr_canonical h]
    exact ⟨hp, by rw [hp]⟩
  · intro s n h
    unfold ModuleId.parse
    rw [h]
  · intro s h
    have hp : ModuleId.parse s = .string s := by
      unfold ModuleId.parse
      rw [h]
    exact ⟨hp, by rw [hp]; rfl⟩

/-- **C9 counterexample.**  `"+7"` is accepted by `u32::from_str`, so
`ModuleId::parse` yields `Number 7`, not `String "+7"`; displaying the
parsed value gives `"7" ≠ "+7"`. -/
theorem module_id_parse_plus_string :
    ModuleId.parse "+7" = .number 7 ∧
    ModuleId.parse "+7" ≠ .string "+7" ∧
    displayModuleId (ModuleId.parse "+7") ≠ "+7" := by
  refine ⟨by decide, by decide, by decide⟩

/-- Witness for `module_id_parse_display_amended` at concrete inputs. -/
theorem module_id_parse_display_amended_witness :
    ModuleId.parse (displayModuleId (.number 42)) = .number 42 ∧
    ModuleId.parse "+7" = .number 7 ∧
    ModuleId.parse "abc" = .string "abc" :=
  ⟨(module_id_parse_display_amended.1 42 (by norm_num)).1,
   module_id_parse_display_amended.2.1 "+7" 7 (by decide),
   (module_id_parse_display_amended.2.2 "abc" (by decide)).1⟩

/-- **C10.**  Implicit entry-factory precondition: when the chunk-item
factory returns `None` for the entry asset or any additional entry, both
public entry points panic (the `unwrap` while building the root edges)
instead of returning `None` or an error. -/
theorem entry_factory_precondition_panic :
    ∀ (w : World) (fuel entry : Nat) (adds : List Nat)
      (info : AvailabilityInfo),
      (w.fromAssetOk entry = false ∨ ∃ e ∈ adds, w.fromAssetOk e = false) →
      chunkContent w fuel entry adds info = .panic ∧
      chunkContentSplit w fuel entry adds info = .panic := by
  intro w fuel entry adds info h
  have hb : buildRootEdges w (entry :: adds) = none := by
    rw [buildRootEdges_none_iff]
    rcases h with h | ⟨e, he, hf⟩
    · exact ⟨entry, List.mem_cons_self _ _, h⟩
    · exact ⟨e, List.mem_cons_of_mem _ he, hf⟩
  constructor
  · unfold chunkContent chunkContentInternal
    rw [hb]
  · unfold chunkContentSplit chunkContentInternal
    rw [hb]

/-- Witness for `entry_factory_precondition_panic` at concrete inputs. -/
theorem entry_factory_precondition_panic_witness :
    chunkContent rejectEntryWorld 3 5 [] (.root 5) = .panic ∧
    chunkContentSplit rejectEntryWorld 3 5 [] (.root 5) = .panic :=
  entry_factory_precondition_panic rejectEntryWorld 3 5 [] (.root 5)
    (Or.inl rfl)

end Turbo
